import Mathlib

/-
  Verification development for the BusTub LRU-K replacer and the two
  HyperLogLog cardinality estimators.

  The replacer is embedded from src/src/buffer/lru_k_replacer.cpp, which
  contains two variants of the class: a lazy variant (pending eviction-key
  updates in a side map, applied inside Evict) and an eager variant
  (remove + re-insert the heap key on RecordAccess).  Frame ids and
  timestamps are embedded as Nat (frame_id_t values used by the replacer
  are opaque; the timestamp counter is monotonic and far below 2^31, so
  the int truncation in RecordAccess is the identity on the reachable
  range).  std::unordered_map is embedded as an association list keyed by
  the stored fid; the heap array std::vector<LRUKAge> is embedded as a
  List whose element multiset matches the C++ array, with the heap
  primitives modelled by their contract: push_heap appends an element,
  pop_heap extracts the maximum element w.r.t. operator<, make_heap
  permutes in place (identity on the multiset).  Operations that can fire
  BUSTUB_ASSERT or perform undefined behaviour (dereferencing the end
  iterator in removeEvictable) return Option, with none marking the
  aborting execution.
-/

/-- LRUKNode from lru_k_replacer.h: fid, access history (front = most
recent), history length counter and the evictable flag. -/
structure LRUKNode where
  fid : Nat
  history : List Nat
  hCount : Nat
  is_evictable : Bool
deriving Repr, DecidableEq

/-- LRUKAge from lru_k_replacer.h: the eviction key of a frame. -/
structure LRUKAge where
  fid : Nat
  lAccess : Nat
  kAccess : Option Nat
deriving Repr, DecidableEq

/-- LRUKAge::operator< of the lazy variant (lru_k_replacer.cpp, first
copy).  The BUSTUB_ASSERT on equal timestamps inside the comparator never
fires on reachable states (timestamps are globally unique) and is not
modelled. -/
def ageLT (a b : LRUKAge) : Bool :=
  match a.kAccess, b.kAccess with
  | some ka, some kb => kb < ka
  | some _, none => true
  | none, some _ => false
  | none, none => b.lAccess < a.lAccess

/-- older from the eager variant of lru_k_replacer.cpp. -/
def olderAge (one two : LRUKAge) : Bool :=
  match one.kAccess, two.kAccess with
  | some k1, some k2 => k1 < k2
  | some _, none => false
  | none, some _ => true
  | none, none => one.lAccess < two.lAccess

/-- LRUKAge::operator< of the eager variant: this < other iff
older(other, this). -/
def ageLT' (a b : LRUKAge) : Bool := olderAge b a

/-- The two variants define the same strict order on eviction keys. -/
theorem ageLT_eq_ageLT' (a b : LRUKAge) : ageLT a b = ageLT' a b := by
  cases a with
  | mk fa la ka =>
    cases b with
    | mk fb lb kb =>
      cases ka <;> cases kb <;> rfl

/-- Lookup in node_store_ (std::unordered_map<frame_id_t, LRUKNode>
keyed by the fid stored in the node). -/
def findNode (st : List LRUKNode) (fid : Nat) : Option LRUKNode :=
  st.find? (fun n => n.fid == fid)

/-- Mutation of the node stored under fid through the map iterator. -/
def setNode (st : List LRUKNode) (fid : Nat) (n' : LRUKNode) : List LRUKNode :=
  st.map (fun n => if n.fid == fid then n' else n)

/-- node_store_.erase(fid). -/
def eraseNode (st : List LRUKNode) (fid : Nat) : List LRUKNode :=
  st.filter (fun n => n.fid != fid)

/-- The pending-update side map update_eviction_ of the lazy variant. -/
abbrev UpdMap := List (Nat × LRUKAge)

/-- update_eviction_.find(fid). -/
def lookupUpd (u : UpdMap) (fid : Nat) : Option LRUKAge :=
  (u.find? (fun p => p.1 == fid)).map (·.2)

/-- update_eviction_.emplace(fid, a): std::unordered_map::emplace does
not overwrite an existing entry. -/
def emplaceUpd (u : UpdMap) (fid : Nat) (a : LRUKAge) : UpdMap :=
  if (u.find? (fun p => p.1 == fid)).isSome then u else (fid, a) :: u

/-- update_eviction_.erase(fid). -/
def eraseUpd (u : UpdMap) (fid : Nat) : UpdMap :=
  u.filter (fun p => p.1 != fid)

/-- LRUKReplacer::fromNode: eviction key of a node.  history is nonempty
on every reachable node, so the defaults of headD and getLastD are never
used. -/
def fromNode (k : Nat) (n : LRUKNode) : LRUKAge :=
  ⟨n.fid, n.history.headD 0,
    if n.hCount < k then none else some (n.history.getLastD 0)⟩

/-- State of the lazy replacer variant: history size k, the atomic
timestamp counter, node_store_, the heap array evictable_ (as its element
list) and update_eviction_. -/
structure LazyState where
  k : Nat
  counter : Nat
  store : List LRUKNode
  evictable : List LRUKAge
  updates : UpdMap
deriving Repr, DecidableEq

/-- LRUKReplacer::LRUKReplacer (lazy variant); num_frames only sizes the
container hints and is not part of the observable state. -/
def initLazy (k : Nat) : LazyState := ⟨k, 0, [], [], []⟩

/-- The history update of RecordAccess on an existing node: push_front of
the new timestamp, then pop_back when hCount_ already reached k, else
increment hCount_. -/
def bumpNode (k t : Nat) (n : LRUKNode) : LRUKNode :=
  if k ≤ n.hCount then { n with history := (t :: n.history).dropLast }
  else { n with history := t :: n.history, hCount := n.hCount + 1 }

/-- LRUKReplacer::RecordAccess of the lazy variant. -/
def recordAccessL (s : LazyState) (fid : Nat) : LazyState :=
  let t := s.counter
  let s1 := { s with counter := s.counter + 1 }
  match findNode s1.store fid with
  | none => { s1 with store := ⟨fid, [t], 1, false⟩ :: s1.store }
  | some n =>
    let n' := bumpNode s1.k t n
    let s2 := { s1 with store := setNode s1.store fid n' }
    if n'.is_evictable then
      { s2 with updates := emplaceUpd s2.updates n'.fid (fromNode s2.k n') }
    else s2

/-- removeEvictable on the heap array: find_if by fid, overwrite with the
back element, pop_back.  When find_if returns end() the C++ writes
through the end iterator, which is undefined behaviour: none. -/
def removeEvictAux (l : List LRUKAge) (fid : Nat) : Option (List LRUKAge) :=
  match l.findIdx? (fun a => a.fid == fid) with
  | none => none
  | some i => some ((l.set i (l.getLastD ⟨0, 0, none⟩)).dropLast)

/-- LRUKReplacer::removeEvictable (lazy variant): drops the pending
update and removes the heap entry of fid. -/
def removeEvictableL (s : LazyState) (fid : Nat) : Option LazyState :=
  (removeEvictAux s.evictable fid).map
    (fun l => { s with evictable := l, updates := eraseUpd s.updates fid })

/-- LRUKReplacer::addEvictable (lazy variant): asserts the node is
evictable, then pushes its key on the heap. -/
def addEvictableL (s : LazyState) (n : LRUKNode) : Option LazyState :=
  if n.is_evictable then
    some { s with evictable := s.evictable ++ [fromNode s.k n] }
  else none

/-- LRUKReplacer::SetEvictable (lazy variant). -/
def setEvictableL (s : LazyState) (fid : Nat) (flag : Bool) : Option LazyState :=
  match findNode s.store fid with
  | none => some s
  | some n =>
    if n.is_evictable == flag then some s
    else
      let n' := { n with is_evictable := flag }
      let s2 := { s with store := setNode s.store fid n' }
      if flag then addEvictableL s2 n' else removeEvictableL s2 fid

/-- LRUKReplacer::Remove (identical in both variants): BUSTUB_ASSERT
fires when the frame is not tracked; a tracked frame is erased, dropping
its heap entry first when it is evictable. -/
def removeL (s : LazyState) (fid : Nat) : Option LazyState :=
  match findNode s.store fid with
  | none => none
  | some n =>
    (if n.is_evictable then removeEvictableL s fid else some s).map
      (fun s2 => { s2 with store := eraseNode s2.store fid })

/-- Pending updates applied to the heap array inside Evict: each entry
with a pending key is overwritten by it. -/
def applyUpdates (u : UpdMap) (l : List LRUKAge) : List LRUKAge :=
  l.map (fun a => (lookupUpd u a.fid).getD a)

/-- Maximum element of the heap array w.r.t. operator<, i.e. the element
std::pop_heap moves to the back. -/
def maxAge : List LRUKAge → Option LRUKAge
  | [] => none
  | x :: xs => some (xs.foldl (fun m a => if ageLT m a then a else m) x)

/-- LRUKReplacer::Evict of the lazy variant: empty check, pending-update
application (with update_eviction_.clear() and re-heapify), extraction of
the maximum key, erasure from node_store_. -/
def evictL (s : LazyState) : Option Nat × LazyState :=
  if s.evictable.isEmpty then (none, s)
  else
    let ev := if s.updates.isEmpty then s.evictable
              else applyUpdates s.updates s.evictable
    match maxAge ev with
    | none => (none, s)
    | some m =>
      (some m.fid,
        { s with evictable := ev.erase m, updates := [],
                 store := eraseNode s.store m.fid })

/-- LRUKReplacer::Size (lazy variant). -/
def sizeL (s : LazyState) : Nat := s.evictable.length

/-- State of the eager replacer variant. -/
structure EagerState where
  k : Nat
  counter : Nat
  store : List LRUKNode
  evictable : List LRUKAge
deriving Repr, DecidableEq

def initEager (k : Nat) : EagerState := ⟨k, 0, [], []⟩

/-- removeEvictable of the eager variant (same array surgery, no update
map). -/
def removeEvictableE (s : EagerState) (fid : Nat) : Option EagerState :=
  (removeEvictAux s.evictable fid).map (fun l => { s with evictable := l })

/-- addEvictable of the eager variant; the inline LRUKAge construction is
literally the body of fromNode. -/
def addEvictableE (s : EagerState) (n : LRUKNode) : Option EagerState :=
  if n.is_evictable then
    some { s with evictable := s.evictable ++ [fromNode s.k n] }
  else none

/-- LRUKReplacer::RecordAccess of the eager variant: an access to an
evictable frame removes and re-inserts its heap key. -/
def recordAccessE (s : EagerState) (fid : Nat) : Option EagerState :=
  let t := s.counter
  let s1 := { s with counter := s.counter + 1 }
  match findNode s1.store fid with
  | none => some { s1 with store := ⟨fid, [t], 1, false⟩ :: s1.store }
  | some n =>
    let n' := bumpNode s1.k t n
    let s2 := { s1 with store := setNode s1.store fid n' }
    if n'.is_evictable then
      match removeEvictableE s2 n'.fid with
      | none => none
      | some s3 => addEvictableE s3 n'
    else some s2

/-- LRUKReplacer::SetEvictable of the eager variant. -/
def setEvictableE (s : EagerState) (fid : Nat) (flag : Bool) : Option EagerState :=
  match findNode s.store fid with
  | none => some s
  | some n =>
    if n.is_evictable == flag then some s
    else
      let n' := { n with is_evictable := flag }
      let s2 := { s with store := setNode s.store fid n' }
      if flag then addEvictableE s2 n' else removeEvictableE s2 fid

/-- LRUKReplacer::Remove of the eager variant (same text as the lazy
copy). -/
def removeE (s : EagerState) (fid : Nat) : Option EagerState :=
  match findNode s.store fid with
  | none => none
  | some n =>
    (if n.is_evictable then removeEvictableE s fid else some s).map
      (fun s2 => { s2 with store := eraseNode s2.store fid })

/-- LRUKReplacer::Evict of the eager variant. -/
def evictE (s : EagerState) : Option Nat × EagerState :=
  if s.evictable.isEmpty then (none, s)
  else
    match maxAge s.evictable with
    | none => (none, s)
    | some m =>
      (some m.fid,
        { s with evictable := s.evictable.erase m,
                 store := eraseNode s.store m.fid })

/-- LRUKReplacer::Size (eager variant). -/
def sizeE (s : EagerState) : Nat := s.evictable.length

/-- The public operations of the replacer. -/
inductive ROp where
  | acc (fid : Nat)
  | setEv (fid : Nat) (flag : Bool)
  | rem (fid : Nat)
  | evictOp
  | sizeOp
deriving Repr, DecidableEq

/-- Observable result of one operation. -/
inductive Obs where
  | unit
  | evicted (r : Option Nat)
  | sized (n : Nat)
deriving Repr, DecidableEq

/-- One step of the lazy variant; none marks a fatal assert or undefined
behaviour. -/
def stepL (s : LazyState) : ROp → Option (Obs × LazyState)
  | .acc f => some (.unit, recordAccessL s f)
  | .setEv f b => (setEvictableL s f b).map (fun s' => (.unit, s'))
  | .rem f => (removeL s f).map (fun s' => (.unit, s'))
  | .evictOp => some ((evictL s).map Obs.evicted id)
  | .sizeOp => some (.sized (sizeL s), s)

/-- One step of the eager variant. -/
def stepE (s : EagerState) : ROp → Option (Obs × EagerState)
  | .acc f => (recordAccessE s f).map (fun s' => (.unit, s'))
  | .setEv f b => (setEvictableE s f b).map (fun s' => (.unit, s'))
  | .rem f => (removeE s f).map (fun s' => (.unit, s'))
  | .evictOp => some ((evictE s).map Obs.evicted id)
  | .sizeOp => some (.sized (sizeE s), s)

/-- Run the lazy variant on a list of operations, collecting the
observable outputs. -/
def runL (s : LazyState) : List ROp → Option (List Obs × LazyState)
  | [] => some ([], s)
  | op :: ops =>
    match stepL s op with
    | none => none
    | some (o, s') => (runL s' ops).map (fun r => (o :: r.1, r.2))

/-- Run the eager variant on a list of operations. -/
def runE (s : EagerState) : List ROp → Option (List Obs × EagerState)
  | [] => some ([], s)
  | op :: ops =>
    match stepE s op with
    | none => none
    | some (o, s') => (runE s' ops).map (fun r => (o :: r.1, r.2))

/-
  HyperLogLog (src/unnamed/part_000 = hyperloglog.h, with the two
  implementation copies: the int-index PositionOfLeftmostOne in the
  concatenated header file and the size_t-index one in
  src/unnamed/part_001) and HyperLogLogPresto (implementation in the
  concatenated header file; its class header with the register constants
  is not among the source files).  The hash is a 64-bit value (hash_t);
  a Nat argument is reduced mod 2^64 where the C++ type forces it.
  Doubles are embedded as exact rationals.
-/

/-- State of a HyperLogLog estimator: n_bits_, buckets_ (uint8 register
values as Nat) and cardinality_. -/
structure HLLState where
  nBits : Nat
  buckets : List Nat
  cardinality : Int
deriving Repr, DecidableEq

/-- HyperLogLog::GetRegister: the top b bits of the 64-bit hash. -/
def hllBucket (b : Nat) (h : Nat) : Nat := h >>> (64 - b)

/-- Descending scan of PositionOfLeftmostOne: position pos runs from frm
down to 0, returning frm - pos + 1 at the first set bit. -/
def scanLeft (h frm : Nat) : Nat → Nat
  | 0 => if h.testBit 0 then frm + 1 else 0
  | p + 1 => if h.testBit (p + 1) then frm - (p + 1) + 1 else scanLeft h frm p

/-- HyperLogLog::PositionOfLeftmostOne, int-index copy (the one in the
concatenated header file): from = 64 - b - 1 as int, loop while
pos >= 0.  For b = 64 the loop body never runs and 0 is returned. -/
def posLeftInt (b h : Nat) : Nat :=
  if b < 64 then scanLeft h (63 - b) (63 - b) else 0

/-- Descending scan of the size_t-index copy: when the bit is never set
the unsigned index wraps past 0 to 2^64 - 1 and the next bset[pos] access
is out of range (undefined behaviour), marked none. -/
def scanLeftU (h frm : Nat) : Nat → Option Nat
  | 0 => if h.testBit 0 then some (frm + 1) else none
  | p + 1 =>
    if h.testBit (p + 1) then some (frm - (p + 1) + 1) else scanLeftU h frm p

/-- HyperLogLog::PositionOfLeftmostOne, size_t-index copy
(src/unnamed/part_001): for b = 64 the int from = -1 converts to a huge
size_t and the very first bset[pos] access is already out of range. -/
def posLeftU (b h : Nat) : Option Nat :=
  if b < 64 then scanLeftU h (63 - b) (63 - b) else none

/-- HyperLogLog::AddElem (the register update applied to the 64-bit hash
of the key; the int-index PositionOfLeftmostOne copy). -/
def hllAdd (s : HLLState) (hash : Nat) : HLLState :=
  let h := hash % 2 ^ 64
  let pos := hllBucket s.nBits h
  let v := posLeftInt s.nBits h
  { s with buckets := s.buckets.set pos (max (s.buckets.getD pos 0) v) }

/-- The fixed bias constant CONSTANT = 0.79402. -/
def hllConstant : ℚ := 79402 / 100000

/-- The accumulated divider of ComputeCardinality: sum of 2^(-register)
over all registers. -/
def hllDivider (regs : List Nat) : ℚ :=
  regs.foldl (fun (acc : ℚ) (v : Nat) => acc + (2 : ℚ) ^ (-(v : ℤ))) 0

/-- HyperLogLog::ComputeCardinality: floor(CONSTANT * m^2 / divider)
stored into cardinality_. -/
def hllComputeCardinality (s : HLLState) : HLLState :=
  { s with cardinality :=
      ⌊hllConstant * (s.buckets.length : ℚ) ^ 2 / hllDivider s.buckets⌋ }

/-- A freshly constructed estimator with 2^b zeroed registers. -/
def freshHLL (b : Nat) : HLLState := ⟨b, List.replicate (2 ^ b) 0, 0⟩

/-- HyperLogLog::HyperLogLog of the clamping copy (the one in the
concatenated header file): n_bits_ = max(0, n), then
assert(n_bits_ <= 64) and 2^n_bits_ zeroed registers.  none marks the
failed assert. -/
def hllCtorClamp (n : Int) : Option HLLState :=
  let nb := max 0 n
  if nb ≤ 64 then some ⟨nb.toNat, List.replicate (2 ^ nb.toNat) 0, 0⟩ else none

/-- HyperLogLog::HyperLogLog of the non-clamping copy
(src/unnamed/part_001): n_bits_ = n unchanged, assert(n_bits_ <= 64),
then resize(std::pow(2, n_bits_)); for negative n the fractional double
truncates to a register count of 0.  The result is the stored n_bits_
together with the register list. -/
def hllCtorNoClamp (n : Int) : Option (Int × List Nat) :=
  if n ≤ 64 then
    some (n, List.replicate (if n < 0 then 0 else 2 ^ n.toNat) 0)
  else none

/-- Modelled from the spec: the Presto register-split constants
DENSE_BITS = 4 and OVERFLOW_BITS = 3 (named DENSE_BUCKET_SIZE and
OVERFLOW_BUCKET_SIZE in the implementation).  The class header defining
them is not among the source files; the spec fixes their example values
4 and 3, "enough to represent leftmost-one positions up to 64". -/
def DENSE_BUCKET_SIZE : Nat := 4

/-- Modelled from the spec: see DENSE_BUCKET_SIZE. -/
def OVERFLOW_BUCKET_SIZE : Nat := 3

/-- State of a HyperLogLogPresto estimator: n_leading_bits_, the dense
packed registers (each a bitset<4> value), the sparse overflow map
(bucket to bitset<3> value) and cardinality_. -/
structure PrestoState where
  nBits : Nat
  dense : List Nat
  overflow : List (Nat × Nat)
  cardinality : Int
deriving Repr, DecidableEq

/-- overflow_bucket_.find(bucket). -/
def lookupOvf (o : List (Nat × Nat)) (bucket : Nat) : Option Nat :=
  (o.find? (fun p => p.1 == bucket)).map (·.2)

/-- overflow_bucket_[bucket] = v (insert or assign). -/
def setOvf (o : List (Nat × Nat)) (bucket v : Nat) : List (Nat × Nat) :=
  if (o.find? (fun p => p.1 == bucket)).isSome then
    o.map (fun p => if p.1 == bucket then (p.1, v) else p)
  else (bucket, v) :: o

/-- ExtractValue value loop: pos runs from 0 while pos < cap, stopping at
the first set bit of the hash; the remaining iteration budget decreases. -/
def tzAux (h : Nat) (pos : Nat) : Nat → Nat
  | 0 => pos
  | r + 1 => if h.testBit pos then pos else tzAux h (pos + 1) r

/-- ExtractValue (concatenated header file, Presto implementation part):
bucket = top b bits of the hash, value = index of the lowest set bit
among the low (64 - b) bits, or 64 - b when they are all zero.  Faithful
for b <= 64 (for larger b the C++ size_t subtraction wraps and the mask
shift is undefined). -/
def extractValue (h : Nat) (b : Nat) : Nat × Nat :=
  let cap := 64 - b
  let bucket := if cap < 64 then h >>> cap else 0
  (bucket, tzAux h 0 cap)

/-- HyperLogLogPresto::GetValue: dense bits plus overflow bits shifted by
DENSE_BUCKET_SIZE.  The mod operations embed the bitset<4> and bitset<3>
value ranges; the uint8 result is at most 15 + 7 * 16 = 127, so the
uint8 accumulation never truncates. -/
def prestoGetValue (s : PrestoState) (bucket : Nat) : Nat :=
  s.dense.getD bucket 0 % 2 ^ DENSE_BUCKET_SIZE +
    ((lookupOvf s.overflow bucket).getD 0 % 2 ^ OVERFLOW_BUCKET_SIZE) <<<
      DENSE_BUCKET_SIZE

/-- HyperLogLogPresto::PutValue: the low DENSE_BUCKET_SIZE bits go into
the dense slot; the overflow bits are stored only when nonzero. -/
def prestoPutValue (s : PrestoState) (bucket v : Nat) : PrestoState :=
  let s1 := { s with dense := s.dense.set bucket (v % 2 ^ DENSE_BUCKET_SIZE) }
  let overflow := v >>> DENSE_BUCKET_SIZE
  if overflow ≠ 0 then
    { s1 with overflow := setOvf s1.overflow bucket (overflow % 2 ^ OVERFLOW_BUCKET_SIZE) }
  else s1

/-- HyperLogLogPresto::AddElem applied to the 64-bit hash of the key. -/
def prestoAdd (s : PrestoState) (hash : Nat) : PrestoState :=
  let h := hash % 2 ^ 64
  let bv := extractValue h s.nBits
  if prestoGetValue s bv.1 < bv.2 then prestoPutValue s bv.1 bv.2 else s

/-- HyperLogLogPresto::ComputeCardinality: same formula as HLL, reading
each register through GetValue. -/
def prestoComputeCardinality (s : PrestoState) : PrestoState :=
  { s with cardinality :=
      ⌊hllConstant * (s.dense.length : ℚ) ^ 2 /
        ((List.range s.dense.length).foldl
          (fun acc i => acc + (2 : ℚ) ^ (-(prestoGetValue s i : ℤ))) 0)⌋ }

/-- HyperLogLogPresto::HyperLogLogPresto: n_leading_bits_ = max(0, n), no
upper clamp and no assert; 2^n_leading_bits_ zeroed dense registers and
an empty overflow map. -/
def prestoCtor (n : Int) : PrestoState :=
  ⟨(max 0 n).toNat, List.replicate (2 ^ (max 0 n).toNat) 0, [], 0⟩

/-
  Concrete scenarios used by the claim theorems below.
-/

/-- K = 3; frame 1 accessed at t = 0 and t = 3, frame 2 at t = 1 and
t = 2; both marked evictable.  Both frames have fewer than K = 3
accesses.  Frame 1 holds the smaller oldest timestamp (0 < 1), frame 2
the smaller most-recent timestamp (2 < 3). -/
def c1Ops : List ROp :=
  [.acc 1, .acc 2, .acc 2, .acc 1, .setEv 1 true, .setEv 2 true]

/-- The lazy-variant state reached by c1Ops. -/
def c1Pre : LazyState := ((runL (initLazy 3) c1Ops).map Prod.snd).getD (initLazy 3)

/-- K = 2; frame 1 becomes evictable after two accesses, frame 3 after
two accesses, then frame 1 is accessed twice more (so its eviction key
changes twice between evictions), and one eviction runs. -/
def c3Ops : List ROp :=
  [.acc 1, .acc 1, .setEv 1 true, .acc 3, .acc 3, .setEv 3 true,
   .acc 1, .acc 1, .evictOp]

/-- Frame ids on the eviction heap. -/
def evFids (s : LazyState) : List Nat := s.evictable.map (fun a => a.fid)

/-- Frame ids of the tracked nodes whose evictable flag is set. -/
def storeEvFids (st : List LRUKNode) : List Nat :=
  (st.filter (fun n => n.is_evictable)).map (fun n => n.fid)

/-- Reachability invariant of the lazy replacer: tracked fids are
distinct, every pending update is keyed by the fid of the key it holds,
and the heap fids are a permutation of the evictable tracked fids. -/
def InvL (s : LazyState) : Prop :=
  (s.store.map (fun n => n.fid)).Nodup ∧
  (∀ p ∈ s.updates, p.2.fid = p.1) ∧
  (evFids s).Perm (storeEvFids s.store)

/-
  Supporting lemmas about the store and heap helpers.
-/

theorem findNode_some {st : List LRUKNode} {fid : Nat} {n : LRUKNode}
    (h : findNode st fid = some n) : n ∈ st ∧ n.fid = fid := by
  refine ⟨List.mem_of_find?_eq_some h, ?_⟩
  have hp := List.find?_some h
  simpa using hp

theorem findNode_none {st : List LRUKNode} {fid : Nat}
    (h : findNode st fid = none) : ∀ n ∈ st, n.fid ≠ fid := by
  intro n hn
  have hp := List.find?_eq_none.mp h n hn
  simpa using hp

theorem findNode_isSome {st : List LRUKNode} {fid : Nat}
    (h : ∃ n ∈ st, n.fid = fid) : ∃ n, findNode st fid = some n := by
  rcases h with ⟨n, hn, hfid⟩
  cases hfind : findNode st fid with
  | none => exact absurd hfid (findNode_none hfind n hn)
  | some m => exact ⟨m, rfl⟩

theorem nodupFid_unique {st : List LRUKNode}
    (hnd : (st.map (fun n => n.fid)).Nodup) {x y : LRUKNode}
    (hx : x ∈ st) (hy : y ∈ st) (hfid : x.fid = y.fid) : x = y :=
  List.inj_on_of_nodup_map hnd hx hy hfid

theorem setNode_map_fid {st : List LRUKNode} {fid : Nat} {n' : LRUKNode}
    (hfid : n'.fid = fid) :
    (setNode st fid n').map (fun n => n.fid) = st.map (fun n => n.fid) := by
  unfold setNode
  rw [List.map_map]
  refine List.map_congr_left ?_
  intro a _
  by_cases h : a.fid = fid
  · simp [Function.comp_def, h, hfid]
  · simp [Function.comp_def, h]

theorem setNode_id {st : List LRUKNode} {fid : Nat} {n' : LRUKNode}
    (h : ∀ y ∈ st, y.fid ≠ fid) : setNode st fid n' = st := by
  unfold setNode
  have : st.map (fun n => if n.fid == fid then n' else n) = st.map id := by
    refine List.map_congr_left ?_
    intro a ha
    simp [h a ha]
  simpa using this

theorem setNode_perm {st : List LRUKNode} {fid : Nat} {n n' : LRUKNode}
    (hnd : (st.map (fun m => m.fid)).Nodup) (hf : findNode st fid = some n)
    (_hfid : n'.fid = fid) : (setNode st fid n').Perm (n' :: st.erase n) := by
  induction st with
  | nil => simp [findNode] at hf
  | cons x xs ih =>
    simp only [List.map_cons, List.nodup_cons, List.mem_map] at hnd
    by_cases hx : x.fid = fid
    · have hxn : n = x := by
        unfold findNode at hf
        rw [List.find?_cons_of_pos _ (by simpa using hx)] at hf
        exact (Option.some_inj.mp hf).symm
      subst hxn
      have htail : setNode xs fid n' = xs := by
        refine setNode_id ?_
        intro y hy hyfid
        exact hnd.1 ⟨y, hy, by rw [hyfid, hx]⟩
      have hhead : setNode (n :: xs) fid n' = n' :: setNode xs fid n' := by
        unfold setNode
        simp [hx]
      rw [hhead, htail, List.erase_cons_head]
    · have hf' : findNode xs fid = some n := by
        unfold findNode at hf ⊢
        rwa [List.find?_cons_of_neg _ (by simpa using hx)] at hf
      have hn := findNode_some hf'
      have hxn : x ≠ n := fun he => hx (he ▸ hn.2)
      have hstep : setNode (x :: xs) fid n' = x :: setNode xs fid n' := by
        unfold setNode
        simp [hx]
      rw [hstep, List.erase_cons_tail]
      · exact ((ih hnd.2 hf').cons x).trans (List.Perm.swap n' x _)
      · simpa using fun he => hxn he

theorem eraseNode_eq_erase {st : List LRUKNode} {fid : Nat} {n : LRUKNode}
    (hnd : (st.map (fun m => m.fid)).Nodup) (hf : findNode st fid = some n) :
    eraseNode st fid = st.erase n := by
  induction st with
  | nil => simp [findNode] at hf
  | cons x xs ih =>
    simp only [List.map_cons, List.nodup_cons, List.mem_map] at hnd
    by_cases hx : x.fid = fid
    · have hxn : n = x := by
        unfold findNode at hf
        rw [List.find?_cons_of_pos _ (by simpa using hx)] at hf
        exact (Option.some_inj.mp hf).symm
      subst hxn
      have htail : List.filter (fun m => m.fid != fid) xs = xs := by
        refine List.filter_eq_self.mpr ?_
        intro y hy
        simp only [bne_iff_ne, ne_eq, decide_eq_true_eq]
        intro hyfid
        exact hnd.1 ⟨y, hy, by rw [hyfid, hx]⟩
      unfold eraseNode
      rw [List.filter_cons, List.erase_cons_head, if_neg (by simp [hx])]
      exact htail
    · have hf' : findNode xs fid = some n := by
        unfold findNode at hf ⊢
        rwa [List.find?_cons_of_neg _ (by simpa using hx)] at hf
      have hn := findNode_some hf'
      have hxn : x ≠ n := fun he => hx (he ▸ hn.2)
      unfold eraseNode
      rw [List.filter_cons, List.erase_cons_tail (by simpa using fun he => hxn he),
        if_pos (by simpa using hx)]
      exact congrArg (x :: ·) (ih hnd.2 hf')

theorem removeEvictAux_none {l : List LRUKAge} {fid : Nat}
    (h : removeEvictAux l fid = none) : ∀ a ∈ l, a.fid ≠ fid := by
  intro a ha hfid
  unfold removeEvictAux at h
  cases hidx : l.findIdx? (fun a => a.fid == fid) with
  | some i => rw [hidx] at h; exact Option.noConfusion h
  | none =>
    have hnone := List.findIdx?_eq_none_iff.mp hidx a ha
    simp only [beq_eq_false_iff_ne, ne_eq] at hnone
    exact hnone hfid

theorem dropLast_cons_ne_nil {x : LRUKAge} {L : List LRUKAge} (h : L ≠ []) :
    (x :: L).dropLast = x :: L.dropLast := by
  cases L with
  | nil => exact absurd rfl h
  | cons y ys => exact List.dropLast_cons₂

theorem removeEvictAux_some {l : List LRUKAge} {fid : Nat} {l' : List LRUKAge}
    (h : removeEvictAux l fid = some l') :
    ∃ a ∈ l, a.fid = fid ∧ l.Perm (a :: l') := by
  induction l generalizing l' with
  | nil => simp [removeEvictAux, List.findIdx?_nil] at h
  | cons x xs ih =>
    by_cases hx : x.fid = fid
    · refine ⟨x, List.mem_cons_self x xs, hx, ?_⟩
      unfold removeEvictAux at h
      rw [List.findIdx?_cons, if_pos (by simpa using hx)] at h
      simp only [Option.some_inj] at h
      subst h
      rw [List.set_cons_zero]
      cases xs with
      | nil => simp
      | cons y ys =>
        rw [List.getLastD_cons, List.dropLast_cons₂]
        refine List.Perm.cons x ?_
        have hne : (y :: ys) ≠ [] := List.cons_ne_nil y ys
        have hgd : (y :: ys).getLastD x = (y :: ys).getLast hne := by
          rw [List.getLastD_eq_getLast?, List.getLast?_eq_getLast _ hne]
          rfl
        rw [hgd]
        have hsing :=
          List.perm_append_singleton ((y :: ys).getLast hne) ((y :: ys).dropLast)
        rw [List.dropLast_append_getLast hne] at hsing
        exact hsing
    · unfold removeEvictAux at h
      rw [List.findIdx?_cons, if_neg (by simpa using hx), List.findIdx?_succ] at h
      cases hidx : List.findIdx? (fun a => a.fid == fid) xs with
      | none => rw [hidx] at h; exact Option.noConfusion h
      | some i =>
        rw [hidx] at h
        simp only [Option.map_some', Option.some_inj] at h
        have hxs : xs ≠ [] := by
          intro he
          rw [he, List.findIdx?_nil] at hidx
          exact Option.noConfusion hidx
        have hrec : removeEvictAux xs fid =
            some ((xs.set i (xs.getLastD (⟨0, 0, none⟩ : LRUKAge))).dropLast) := by
          unfold removeEvictAux
          rw [hidx]
        rcases ih hrec with ⟨a, ha, hafid, hperm⟩
        refine ⟨a, List.mem_cons_of_mem x ha, hafid, ?_⟩
        have hgd : (x :: xs).getLastD (⟨0, 0, none⟩ : LRUKAge) =
            xs.getLastD (⟨0, 0, none⟩ : LRUKAge) := by
          cases xs with
          | nil => exact absurd rfl hxs
          | cons y ys => simp only [List.getLastD_cons]
        have hset_ne : xs.set i (xs.getLastD (⟨0, 0, none⟩ : LRUKAge)) ≠ [] := by
          intro he
          have hlen := congrArg List.length he
          rw [List.length_set] at hlen
          exact hxs (List.length_eq_zero.mp hlen)
        have hl' : l' = x :: (xs.set i (xs.getLastD (⟨0, 0, none⟩ : LRUKAge))).dropLast := by
          rw [← h, hgd, List.set_cons_succ, dropLast_cons_ne_nil hset_ne]
        rw [hl']
        exact (hperm.cons x).trans (List.Perm.swap a x _)

theorem maxAge_mem {l : List LRUKAge} {m : LRUKAge} (h : maxAge l = some m) :
    m ∈ l := by
  cases l with
  | nil => exact Option.noConfusion h
  | cons x xs =>
    unfold maxAge at h
    simp only [Option.some_inj] at h
    subst h
    have haux : ∀ (ys : List LRUKAge) (a : LRUKAge),
        ys.foldl (fun m b => if ageLT m b then b else m) a ∈ a :: ys := by
      intro ys
      induction ys with
      | nil => intro a; simp
      | cons b bs ihb =>
        intro a
        rw [List.foldl_cons]
        rcases List.mem_cons.mp (ihb (if ageLT a b then b else a)) with hh | hh
        · rw [hh]
          by_cases hab : ageLT a b
          · simp [hab]
          · simp [hab]
        · exact List.mem_cons_of_mem a (List.mem_cons_of_mem b hh)
    exact haux xs x

theorem maxAge_isSome {l : List LRUKAge} (h : l ≠ []) :
    ∃ m, maxAge l = some m := by
  cases l with
  | nil => exact absurd rfl h
  | cons x xs => exact ⟨_, rfl⟩

theorem storeEvFids_perm {st st' : List LRUKNode} (h : st.Perm st') :
    (storeEvFids st).Perm (storeEvFids st') :=
  (h.filter _).map _

theorem storeEvFids_cons (n : LRUKNode) (st : List LRUKNode) :
    storeEvFids (n :: st) =
      if n.is_evictable then n.fid :: storeEvFids st else storeEvFids st := by
  unfold storeEvFids
  rw [List.filter_cons]
  by_cases hev : n.is_evictable
  · simp [hev]
  · simp [hev]

theorem storeEvFids_setNode_perm {st : List LRUKNode} {fid : Nat} {n n' : LRUKNode}
    (hnd : (st.map (fun m => m.fid)).Nodup) (hf : findNode st fid = some n)
    (hfid : n'.fid = n.fid) (hflag : n'.is_evictable = n.is_evictable) :
    (storeEvFids (setNode st fid n')).Perm (storeEvFids st) := by
  have hnfid := (findNode_some hf).2
  have h1 := storeEvFids_perm (setNode_perm hnd hf (hfid.trans hnfid))
  have h2 := storeEvFids_perm (List.perm_cons_erase (findNode_some hf).1)
  refine h1.trans (List.Perm.trans ?_ h2.symm)
  rw [storeEvFids_cons, storeEvFids_cons, hflag, hfid]

theorem storeEvFids_flip_true {st : List LRUKNode} {fid : Nat} {n n' : LRUKNode}
    (hnd : (st.map (fun m => m.fid)).Nodup) (hf : findNode st fid = some n)
    (hfid : n'.fid = n.fid) (hold : n.is_evictable = false)
    (hnew : n'.is_evictable = true) :
    (storeEvFids (setNode st fid n')).Perm (n'.fid :: storeEvFids st) := by
  have hnfid := (findNode_some hf).2
  have h1 := storeEvFids_perm (setNode_perm hnd hf (hfid.trans hnfid))
  have h2 := storeEvFids_perm (List.perm_cons_erase (findNode_some hf).1)
  rw [storeEvFids_cons, hnew, if_pos rfl] at h1
  rw [storeEvFids_cons, hold] at h2
  simp only [Bool.false_eq_true, if_false] at h2
  exact h1.trans ((h2.symm.cons n'.fid))

theorem storeEvFids_flip_false {st : List LRUKNode} {fid : Nat} {n n' : LRUKNode}
    (hnd : (st.map (fun m => m.fid)).Nodup) (hf : findNode st fid = some n)
    (hfid : n'.fid = n.fid) (hold : n.is_evictable = true)
    (hnew : n'.is_evictable = false) :
    (n.fid :: storeEvFids (setNode st fid n')).Perm (storeEvFids st) := by
  have hnfid := (findNode_some hf).2
  have h1 := storeEvFids_perm (setNode_perm hnd hf (hfid.trans hnfid))
  have h2 := storeEvFids_perm (List.perm_cons_erase (findNode_some hf).1)
  rw [storeEvFids_cons, hnew] at h1
  simp only [Bool.false_eq_true, if_false] at h1
  rw [storeEvFids_cons, hold, if_pos rfl] at h2
  exact ((h1.cons n.fid).trans h2.symm)

theorem storeEvFids_eraseNode_evictable {st : List LRUKNode} {fid : Nat}
    {n : LRUKNode} (hnd : (st.map (fun m => m.fid)).Nodup)
    (hf : findNode st fid = some n) (hev : n.is_evictable = true) :
    (storeEvFids st).Perm (n.fid :: storeEvFids (eraseNode st fid)) := by
  have h2 := storeEvFids_perm (List.perm_cons_erase (findNode_some hf).1)
  rw [storeEvFids_cons, hev, if_pos rfl] at h2
  rw [eraseNode_eq_erase hnd hf]
  exact h2

theorem storeEvFids_eraseNode_nonevictable {st : List LRUKNode} {fid : Nat}
    {n : LRUKNode} (hnd : (st.map (fun m => m.fid)).Nodup)
    (hf : findNode st fid = some n) (hev : n.is_evictable = false) :
    (storeEvFids st).Perm (storeEvFids (eraseNode st fid)) := by
  have h2 := storeEvFids_perm (List.perm_cons_erase (findNode_some hf).1)
  rw [storeEvFids_cons, hev] at h2
  simp only [Bool.false_eq_true, if_false] at h2
  rw [eraseNode_eq_erase hnd hf]
  exact h2

theorem eraseNode_map_fid_nodup {st : List LRUKNode} {fid : Nat}
    (hnd : (st.map (fun m => m.fid)).Nodup) :
    ((eraseNode st fid).map (fun m => m.fid)).Nodup :=
  ((List.filter_sublist st).map _).nodup hnd

theorem lookupUpd_fid {u : UpdMap} {fid : Nat} {b : LRUKAge}
    (hu : ∀ p ∈ u, p.2.fid = p.1) (h : lookupUpd u fid = some b) :
    b.fid = fid := by
  unfold lookupUpd at h
  cases hfind : u.find? (fun p => p.1 == fid) with
  | none => rw [hfind] at h; exact Option.noConfusion h
  | some p =>
    rw [hfind] at h
    simp only [Option.map_some', Option.some_inj] at h
    have hkey : p.1 = fid := by simpa using List.find?_some hfind
    have hmem := List.mem_of_find?_eq_some hfind
    rw [← h, hu p hmem, hkey]

theorem applyUpdates_map_fid {u : UpdMap} {l : List LRUKAge}
    (hu : ∀ p ∈ u, p.2.fid = p.1) :
    (applyUpdates u l).map (fun a => a.fid) = l.map (fun a => a.fid) := by
  unfold applyUpdates
  rw [List.map_map]
  refine List.map_congr_left ?_
  intro a _
  simp only [Function.comp_apply]
  cases hl : lookupUpd u a.fid with
  | none => rfl
  | some b => simpa using lookupUpd_fid hu hl

theorem eraseUpd_sound {u : UpdMap} {fid : Nat}
    (hu : ∀ p ∈ u, p.2.fid = p.1) : ∀ p ∈ eraseUpd u fid, p.2.fid = p.1 :=
  fun p hp => hu p (List.mem_of_mem_filter hp)

theorem emplaceUpd_sound {u : UpdMap} {fid : Nat} {a : LRUKAge}
    (hu : ∀ p ∈ u, p.2.fid = p.1) (ha : a.fid = fid) :
    ∀ p ∈ emplaceUpd u fid a, p.2.fid = p.1 := by
  intro p hp
  unfold emplaceUpd at hp
  by_cases hfind : (u.find? (fun p => p.1 == fid)).isSome
  · rw [if_pos hfind] at hp
    exact hu p hp
  · rw [if_neg hfind] at hp
    rcases List.mem_cons.mp hp with hh | hh
    · rw [hh]; exact ha
    · exact hu p hh

theorem bumpNode_fid (k t : Nat) (n : LRUKNode) : (bumpNode k t n).fid = n.fid := by
  unfold bumpNode
  split <;> rfl

theorem bumpNode_flag (k t : Nat) (n : LRUKNode) :
    (bumpNode k t n).is_evictable = n.is_evictable := by
  unfold bumpNode
  split <;> rfl

theorem recordAccessL_inv {s : LazyState} {fid : Nat} (h : InvL s) :
    InvL (recordAccessL s fid) := by
  obtain ⟨hnd, hupd, hperm⟩ := h
  unfold recordAccessL
  dsimp only
  split
  case _ hfind =>
    have hfind' : findNode s.store fid = none := hfind
    refine ⟨?_, hupd, ?_⟩
    · show ((⟨fid, [s.counter], 1, false⟩ :: s.store).map (fun n => n.fid)).Nodup
      rw [List.map_cons]
      refine List.Nodup.cons ?_ hnd
      simp only [List.mem_map, not_exists, not_and]
      intro y hy hyfid
      exact findNode_none hfind' y hy hyfid
    · show (evFids s).Perm (storeEvFids (⟨fid, [s.counter], 1, false⟩ :: s.store))
      rw [storeEvFids_cons]
      exact hperm
  case _ n hfind =>
    have hfind' : findNode s.store fid = some n := hfind
    have hn := findNode_some hfind'
    have hsetnd :
        ((setNode s.store fid (bumpNode s.k s.counter n)).map (fun m => m.fid)).Nodup := by
      rw [setNode_map_fid ((bumpNode_fid _ _ _).trans hn.2)]
      exact hnd
    have hsetperm :
        (evFids s).Perm (storeEvFids (setNode s.store fid (bumpNode s.k s.counter n))) :=
      hperm.trans
        (storeEvFids_setNode_perm hnd hfind' (bumpNode_fid _ _ _) (bumpNode_flag _ _ _)).symm
    by_cases hev : (bumpNode s.k s.counter n).is_evictable
    · simp only [hev, if_true]
      exact ⟨hsetnd, emplaceUpd_sound hupd rfl, hsetperm⟩
    · simp only [hev, if_false]
      exact ⟨hsetnd, hupd, hsetperm⟩

theorem setEvictableL_inv {s : LazyState} {fid : Nat} {flag : Bool} {s' : LazyState}
    (hinv : InvL s) (h : setEvictableL s fid flag = some s') : InvL s' := by
  obtain ⟨hnd, hupd, hperm⟩ := hinv
  unfold setEvictableL at h
  split at h
  case _ hfind =>
    obtain rfl := Option.some_inj.mp h
    exact ⟨hnd, hupd, hperm⟩
  case _ n hfind =>
    have hfind' : findNode s.store fid = some n := hfind
    have hn := findNode_some hfind'
    by_cases hsame : n.is_evictable = flag
    · rw [if_pos (by simpa using hsame)] at h
      obtain rfl := Option.some_inj.mp h
      exact ⟨hnd, hupd, hperm⟩
    · rw [if_neg (by simpa using hsame)] at h
      dsimp only at h
      cases flag with
      | true =>
        have hold : n.is_evictable = false := by
          cases hb : n.is_evictable
          · rfl
          · exact absurd hb hsame
        rw [if_pos rfl] at h
        unfold addEvictableL at h
        rw [if_pos (show ({ n with is_evictable := true } : LRUKNode).is_evictable = true
          from rfl)] at h
        obtain rfl := Option.some_inj.mp h
        have hfid1 : ({ n with is_evictable := true } : LRUKNode).fid = fid := hn.2
        refine ⟨?_, hupd, ?_⟩
        · show ((setNode s.store fid { n with is_evictable := true }).map
            (fun m => m.fid)).Nodup
          rw [setNode_map_fid hfid1]
          exact hnd
        · show ((s.evictable ++ [fromNode s.k { n with is_evictable := true }]).map
            (fun a => a.fid)).Perm
            (storeEvFids (setNode s.store fid { n with is_evictable := true }))
          have hflip := storeEvFids_flip_true hnd hfind'
            (show ({ n with is_evictable := true } : LRUKNode).fid = n.fid from rfl)
            hold
            (show ({ n with is_evictable := true } : LRUKNode).is_evictable = true from rfl)
          rw [List.map_append]
          refine (List.perm_append_singleton _ _).trans ?_
          exact (hperm.cons n.fid).trans hflip.symm
      | false =>
        have hold : n.is_evictable = true := by
          cases hb : n.is_evictable
          · exact absurd hb hsame
          · rfl
        rw [if_neg Bool.false_ne_true] at h
        unfold removeEvictableL at h
        cases haux : removeEvictAux s.evictable fid with
        | none =>
          rw [haux] at h
          exact Option.noConfusion h
        | some l' =>
          rw [haux] at h
          simp only [Option.map_some', Option.some_inj] at h
          obtain rfl := h
          rcases removeEvictAux_some haux with ⟨a, ha, hafid, hpermaux⟩
          have hfid1 : ({ n with is_evictable := false } : LRUKNode).fid = fid := hn.2
          refine ⟨?_, eraseUpd_sound hupd, ?_⟩
          · show ((setNode s.store fid { n with is_evictable := false }).map
              (fun m => m.fid)).Nodup
            rw [setNode_map_fid hfid1]
            exact hnd
          · show (l'.map (fun a => a.fid)).Perm
              (storeEvFids (setNode s.store fid { n with is_evictable := false }))
            have hflip := storeEvFids_flip_false hnd hfind'
              (show ({ n with is_evictable := false } : LRUKNode).fid = n.fid from rfl)
              hold
              (show ({ n with is_evictable := false } : LRUKNode).is_evictable = false
                from rfl)
            have hmap := hpermaux.map (fun a => a.fid)
            rw [List.map_cons, hafid, ← hn.2] at hmap
            have hchain : (n.fid :: l'.map (fun a => a.fid)).Perm
                (n.fid :: storeEvFids (setNode s.store fid { n with is_evictable := false })) :=
              (hmap.symm.trans hperm).trans hflip.symm
            exact hchain.cons_inv

theorem removeL_inv {s : LazyState} {fid : Nat} {s' : LazyState}
    (hinv : InvL s) (h : removeL s fid = some s') : InvL s' := by
  obtain ⟨hnd, hupd, hperm⟩ := hinv
  unfold removeL at h
  split at h
  case _ hfind => exact Option.noConfusion h
  case _ n hfind =>
    have hfind' : findNode s.store fid = some n := hfind
    have hn := findNode_some hfind'
    by_cases hev : n.is_evictable
    · rw [if_pos hev] at h
      unfold removeEvictableL at h
      cases haux : removeEvictAux s.evictable fid with
      | none =>
        rw [haux] at h
        exact Option.noConfusion h
      | some l' =>
        rw [haux] at h
        simp only [Option.map_some', Option.some_inj] at h
        obtain rfl := h
        rcases removeEvictAux_some haux with ⟨a, ha, hafid, hpermaux⟩
        refine ⟨?_, eraseUpd_sound hupd, ?_⟩
        · show ((eraseNode s.store fid).map (fun m => m.fid)).Nodup
          exact eraseNode_map_fid_nodup hnd
        · show (l'.map (fun a => a.fid)).Perm (storeEvFids (eraseNode s.store fid))
          have herase := storeEvFids_eraseNode_evictable hnd hfind' hev
          have hmap := hpermaux.map (fun a => a.fid)
          rw [List.map_cons, hafid, ← hn.2] at hmap
          have hchain : (n.fid :: l'.map (fun a => a.fid)).Perm
              (n.fid :: storeEvFids (eraseNode s.store fid)) :=
            (hmap.symm.trans hperm).trans herase
          exact hchain.cons_inv
    · rw [if_neg hev] at h
      simp only [Option.map_some', Option.some_inj] at h
      obtain rfl := h
      refine ⟨?_, hupd, ?_⟩
      · show ((eraseNode s.store fid).map (fun m => m.fid)).Nodup
        exact eraseNode_map_fid_nodup hnd
      · show (evFids s).Perm (storeEvFids (eraseNode s.store fid))
        exact hperm.trans
          (storeEvFids_eraseNode_nonevictable hnd hfind' (by simpa using hev))

theorem evFids_applyUpdates {s : LazyState}
    (hupd : ∀ p ∈ s.updates, p.2.fid = p.1) :
    (if s.updates.isEmpty then s.evictable
      else applyUpdates s.updates s.evictable).map (fun a => a.fid) =
      s.evictable.map (fun a => a.fid) := by
  by_cases hemp : s.updates.isEmpty
  · rw [if_pos hemp]
  · rw [if_neg hemp]
    exact applyUpdates_map_fid hupd

theorem evictL_inv {s : LazyState} (hinv : InvL s) : InvL (evictL s).2 := by
  obtain ⟨hnd, hupd, hperm⟩ := hinv
  unfold evictL
  by_cases hemp : s.evictable.isEmpty
  · rw [if_pos hemp]
    exact ⟨hnd, hupd, hperm⟩
  · rw [if_neg hemp]
    dsimp only
    cases hmax : maxAge (if s.updates.isEmpty then s.evictable
        else applyUpdates s.updates s.evictable) with
    | none => exact ⟨hnd, hupd, hperm⟩
    | some m =>
      dsimp only
      have hm := maxAge_mem hmax
      have hevmap := evFids_applyUpdates hupd
      have hpermev : ((if s.updates.isEmpty then s.evictable
          else applyUpdates s.updates s.evictable).map (fun a => a.fid)).Perm
          (storeEvFids s.store) := by
        rw [hevmap]
        exact hperm
      have hmfid : m.fid ∈ storeEvFids s.store := by
        refine hpermev.mem_iff.mp ?_
        exact List.mem_map_of_mem (fun a => a.fid) hm
      have hnode : ∃ e ∈ s.store, e.fid = m.fid ∧ e.is_evictable = true := by
        unfold storeEvFids at hmfid
        rcases List.mem_map.mp hmfid with ⟨e, hef, hefid⟩
        rcases List.mem_filter.mp hef with ⟨hes, heev⟩
        exact ⟨e, hes, hefid, heev⟩
      rcases hnode with ⟨e, hes, hefid, heev⟩
      rcases findNode_isSome ⟨e, hes, hefid⟩ with ⟨nn, hnn⟩
      have hnne := findNode_some hnn
      have henn : nn = e :=
        nodupFid_unique hnd hnne.1 hes (hnne.2.trans hefid.symm)
      have hnnev : nn.is_evictable = true := henn ▸ heev
      have hnnfid : nn.fid = m.fid := hnne.2.trans rfl
      refine ⟨?_, ?_, ?_⟩
      · show ((eraseNode s.store m.fid).map (fun mm => mm.fid)).Nodup
        exact eraseNode_map_fid_nodup hnd
      · intro p hp
        exact absurd hp (List.not_mem_nil p)
      · show (((if s.updates.isEmpty then s.evictable
            else applyUpdates s.updates s.evictable).erase m).map (fun a => a.fid)).Perm
            (storeEvFids (eraseNode s.store m.fid))
        have hconsperm := (List.perm_cons_erase hm).map (fun a => a.fid)
        rw [List.map_cons] at hconsperm
        have herase := storeEvFids_eraseNode_evictable hnd hnn hnnev
        rw [hnnfid] at herase
        have hchain : (m.fid :: ((if s.updates.isEmpty then s.evictable
            else applyUpdates s.updates s.evictable).erase m).map (fun a => a.fid)).Perm
            (m.fid :: storeEvFids (eraseNode s.store m.fid)) :=
          (hconsperm.symm.trans hpermev).trans herase
        exact hchain.cons_inv

theorem stepL_inv {s : LazyState} {op : ROp} {o : Obs} {s' : LazyState}
    (hinv : InvL s) (h : stepL s op = some (o, s')) : InvL s' := by
  cases op with
  | acc f =>
    unfold stepL at h
    simp only [Option.some_inj, Prod.mk.injEq] at h
    exact h.2 ▸ recordAccessL_inv hinv
  | setEv f b =>
    unfold stepL at h
    dsimp only at h
    cases hset : setEvictableL s f b with
    | none => rw [hset] at h; exact Option.noConfusion h
    | some s2 =>
      rw [hset] at h
      simp only [Option.map_some', Option.some_inj, Prod.mk.injEq] at h
      exact h.2 ▸ setEvictableL_inv hinv hset
  | rem f =>
    unfold stepL at h
    dsimp only at h
    cases hrem : removeL s f with
    | none => rw [hrem] at h; exact Option.noConfusion h
    | some s2 =>
      rw [hrem] at h
      simp only [Option.map_some', Option.some_inj, Prod.mk.injEq] at h
      exact h.2 ▸ removeL_inv hinv hrem
  | evictOp =>
    unfold stepL at h
    simp only [Option.some_inj] at h
    have h2 := congrArg Prod.snd h
    simp only [Prod.map_snd, id] at h2
    exact h2 ▸ evictL_inv hinv
  | sizeOp =>
    unfold stepL at h
    simp only [Option.some_inj, Prod.mk.injEq] at h
    exact h.2 ▸ hinv

theorem runL_inv {ops : List ROp} {s : LazyState} {out : List Obs} {s' : LazyState}
    (hinv : InvL s) (h : runL s ops = some (out, s')) : InvL s' := by
  induction ops generalizing s out with
  | nil =>
    unfold runL at h
    simp only [Option.some_inj, Prod.mk.injEq] at h
    exact h.2 ▸ hinv
  | cons op ops ih =>
    unfold runL at h
    cases hstep : stepL s op with
    | none => rw [hstep] at h; exact Option.noConfusion h
    | some os =>
      obtain ⟨o2, s2⟩ := os
      rw [hstep] at h
      dsimp only at h
      cases hrun : runL s2 ops with
      | none => rw [hrun] at h; exact Option.noConfusion h
      | some r =>
        obtain ⟨rout, rs⟩ := r
        rw [hrun] at h
        simp only [Option.map_some', Option.some_inj, Prod.mk.injEq] at h
        have hinv2 : InvL s2 := stepL_inv hinv hstep
        exact ih hinv2 (h.2 ▸ hrun)

theorem initLazy_inv (k : Nat) : InvL (initLazy k) := by
  refine ⟨List.nodup_nil, ?_, List.Perm.refl _⟩
  intro p hp
  exact absurd hp (List.not_mem_nil p)

theorem tzAux_le (h : Nat) : ∀ (r p : Nat), tzAux h p r ≤ p + r := by
  intro r
  induction r with
  | zero => intro p; simp [tzAux]
  | succ r ih =>
    intro p
    unfold tzAux
    by_cases hb : h.testBit p
    · rw [if_pos hb]
      omega
    · rw [if_neg hb]
      have := ih (p + 1)
      omega

theorem tzAux_spec (h : Nat) : ∀ (r p : Nat),
    p ≤ tzAux h p r ∧
    (∀ i, p ≤ i → i < tzAux h p r → h.testBit i = false) ∧
    (tzAux h p r < p + r → h.testBit (tzAux h p r) = true) := by
  intro r
  induction r with
  | zero =>
    intro p
    refine ⟨Nat.le_refl p, ?_, ?_⟩
    · intro i hpi hlt
      simp only [tzAux] at hlt
      omega
    · intro hlt
      simp only [tzAux] at hlt
      omega
  | succ r ih =>
    intro p
    unfold tzAux
    by_cases hb : h.testBit p
    · rw [if_pos hb]
      refine ⟨Nat.le_refl p, ?_, fun _ => hb⟩
      intro i hpi hlt
      omega
    · rw [if_neg hb]
      obtain ⟨hge, hzero, hset⟩ := ih (p + 1)
      refine ⟨by omega, ?_, ?_⟩
      · intro i hpi hlt
        by_cases hip : i = p
        · subst hip
          exact Bool.eq_false_iff.mpr hb
        · exact hzero i (by omega) hlt
      · intro hlt
        exact hset (by omega)

theorem find?_map_replace (o : List (Nat × Nat)) (b v b' : Nat) (hne : b' ≠ b) :
    (o.map (fun q => if q.1 == b then (q.1, v) else q)).find? (fun q => q.1 == b') =
      o.find? (fun q => q.1 == b') := by
  induction o with
  | nil => rfl
  | cons p ps ih =>
    rw [List.map_cons]
    have hkey : (if p.1 == b then (p.1, v) else p).1 = p.1 := by
      split <;> rfl
    by_cases hpb' : p.1 = b'
    · have hpnb : ¬(p.1 == b) = true := by
        simp only [beq_iff_eq]
        rw [hpb']
        exact hne
      rw [if_neg hpnb, List.find?_cons_of_pos _ (by simpa using hpb'),
        List.find?_cons_of_pos _ (by simpa using hpb')]
    · rw [List.find?_cons_of_neg _ (by rw [hkey]; simpa using hpb'),
        List.find?_cons_of_neg _ (by simpa using hpb')]
      exact ih

theorem find?_map_replace_self (o : List (Nat × Nat)) (b v : Nat)
    (hf : (o.find? (fun q => q.1 == b)).isSome = true) :
    (o.map (fun q => if q.1 == b then (q.1, v) else q)).find? (fun q => q.1 == b) =
      some (b, v) := by
  induction o with
  | nil => simp [List.find?] at hf
  | cons p ps ih =>
    rw [List.map_cons]
    by_cases hp : p.1 = b
    · rw [if_pos (by simpa using hp), List.find?_cons_of_pos _ (by simpa using hp)]
      rw [hp]
    · have hf' : (ps.find? (fun q => q.1 == b)).isSome = true := by
        rwa [List.find?_cons_of_neg _ (by simpa using hp)] at hf
      rw [if_neg (by simpa using hp), List.find?_cons_of_neg _ (by simpa using hp)]
      exact ih hf'

theorem lookupOvf_setOvf_self (o : List (Nat × Nat)) (b v : Nat) :
    lookupOvf (setOvf o b v) b = some v := by
  unfold setOvf
  by_cases hf : (o.find? (fun p => p.1 == b)).isSome
  · rw [if_pos hf]
    unfold lookupOvf
    rw [find?_map_replace_self o b v hf]
    rfl
  · rw [if_neg hf]
    unfold lookupOvf
    rw [List.find?_cons_of_pos _ (by simp)]
    rfl

theorem lookupOvf_setOvf_ne (o : List (Nat × Nat)) (b v b' : Nat) (hne : b' ≠ b) :
    lookupOvf (setOvf o b v) b' = lookupOvf o b' := by
  unfold setOvf
  by_cases hf : (o.find? (fun p => p.1 == b)).isSome
  · rw [if_pos hf]
    unfold lookupOvf
    rw [find?_map_replace o b v b' hne]
  · rw [if_neg hf]
    unfold lookupOvf
    rw [List.find?_cons_of_neg _ (by simpa using fun hc => hne hc.symm)]

theorem getD_set_self {l : List Nat} {i v : Nat} (h : i < l.length) :
    (l.set i v).getD i 0 = v := by
  rw [List.getD_eq_getElem?_getD, List.getElem?_set_self h]
  rfl

theorem getD_set_ne {l : List Nat} {i j v : Nat} (h : i ≠ j) :
    (l.set i v).getD j 0 = l.getD j 0 := by
  rw [List.getD_eq_getElem?_getD, List.getElem?_set_ne h, ← List.getD_eq_getElem?_getD]

/-
  Claim theorems.
-/

/-- Claim C7: after every sequence of record_access, set_evictable,
remove and evict operations (any run of the lazy replacer that does not
abort), size() equals the number of frames tracked in the NodeStore whose
evictable flag is true, and each such frame appears exactly once in the
EvictableSet. -/
theorem lruk_size_consistency (k : Nat) (ops : List ROp) (out : List Obs)
    (s : LazyState) (h : runL (initLazy k) ops = some (out, s)) :
    sizeL s = (s.store.filter (fun n => n.is_evictable)).length ∧
    ∀ n ∈ s.store, n.is_evictable = true →
      (s.evictable.map (fun a => a.fid)).count n.fid = 1 := by
  obtain ⟨hnd, hupd, hperm⟩ := runL_inv (initLazy_inv k) h
  constructor
  · show s.evictable.length = _
    have hlen := hperm.length_eq
    unfold evFids storeEvFids at hlen
    rw [List.length_map, List.length_map] at hlen
    exact hlen
  · intro n hn hev
    have hmem : n.fid ∈ storeEvFids s.store :=
      List.mem_map_of_mem _ (List.mem_filter.mpr ⟨hn, hev⟩)
    have hnd2 : (storeEvFids s.store).Nodup :=
      ((List.filter_sublist s.store).map _).nodup hnd
    have hcount := List.count_eq_one_of_mem hnd2 hmem
    have hceq := hperm.count_eq n.fid
    unfold evFids at hceq
    rw [hceq]
    exact hcount

/-- Witness for C7: the sequence access frame 1, mark it evictable ends
in a state with one evictable tracked frame, heap fid count 1 and
size 1. -/
theorem lruk_size_consistency_witness :
    runL (initLazy 2) [ROp.acc 1, ROp.setEv 1 true] =
      some ([Obs.unit, Obs.unit],
        ⟨2, 1, [⟨1, [0], 1, true⟩], [⟨1, 0, none⟩], []⟩) ∧
    (sizeL ⟨2, 1, [⟨1, [0], 1, true⟩], [⟨1, 0, none⟩], []⟩ =
      (((⟨2, 1, [⟨1, [0], 1, true⟩], [⟨1, 0, none⟩], []⟩ : LazyState)).store.filter
        (fun n => n.is_evictable)).length ∧
    ∀ n ∈ (⟨2, 1, [⟨1, [0], 1, true⟩], [⟨1, 0, none⟩], []⟩ : LazyState).store,
      n.is_evictable = true →
      ((⟨2, 1, [⟨1, [0], 1, true⟩], [⟨1, 0, none⟩], []⟩ : LazyState).evictable.map
        (fun a => a.fid)).count n.fid = 1) :=
  ⟨rfl, lruk_size_consistency 2 [ROp.acc 1, ROp.setEv 1 true] [Obs.unit, Obs.unit]
    ⟨2, 1, [⟨1, [0], 1, true⟩], [⟨1, 0, none⟩], []⟩ rfl⟩

/-- Claim C1 (code bug): the claim and the in-source doc comment of Evict
say that among frames with fewer than K accesses the victim is the frame
whose oldest recorded timestamp (back of its history) is smallest, but
fromNode builds the tie-break key from history_.front(), the most recent
timestamp.  In the reachable state c1Pre (K = 3, frame 1 accessed at 0
and 3, frame 2 accessed at 1 and 2, both evictable, both with 2 < K
accesses) frame 1 has the smaller oldest timestamp (0 < 1), yet Evict
returns frame 2 (the frame with the smaller most-recent timestamp). -/
theorem lruk_evict_oldest_tiebreak_code_bug :
    runL (initLazy 3) c1Ops =
      some ([Obs.unit, Obs.unit, Obs.unit, Obs.unit, Obs.unit, Obs.unit], c1Pre) ∧
    findNode c1Pre.store 1 = some ⟨1, [3, 0], 2, true⟩ ∧
    findNode c1Pre.store 2 = some ⟨2, [2, 1], 2, true⟩ ∧
    c1Pre.evictable = [⟨1, 3, none⟩, ⟨2, 2, none⟩] ∧
    (evictL c1Pre).1 = some 2 ∧
    some (2 : Nat) ≠ some 1 :=
  ⟨rfl, rfl, rfl, rfl, rfl, by decide⟩

/-- Claim C2 (code bug): the claim and the in-source doc comment of
Remove say remove(id) is a silent no-op on an untracked id and fatally
asserts on a tracked non-evictable id.  The code does the opposite: on
the tracked non-evictable frame 1 Remove silently erases the node, and on
the untracked id 5 the BUSTUB_ASSERT fires (modelled as none). -/
theorem lruk_remove_error_handling_code_bug :
    removeL (recordAccessL (initLazy 2) 1) 1 = some ⟨2, 1, [], [], []⟩ ∧
    findNode (recordAccessL (initLazy 2) 1).store 1 = some ⟨1, [0], 1, false⟩ ∧
    removeL (initLazy 2) 5 = none :=
  ⟨rfl, rfl, rfl⟩

/-- Claim C3 (code bug): the lazy and eager variants are claimed
observationally equivalent, and the spec requires every evict to see the
up-to-date eviction key even when an evictable frame was accessed more
than once since the previous evict.  update_eviction_.emplace does not
overwrite, so the second pending update of frame 1 is dropped: on c3Ops
(K = 2) the lazy variant evicts frame 1 while the eager variant evicts
frame 3. -/
theorem lruk_lazy_eager_evict_divergence_code_bug :
    (runL (initLazy 2) c3Ops).map Prod.fst =
      some [Obs.unit, Obs.unit, Obs.unit, Obs.unit, Obs.unit, Obs.unit,
        Obs.unit, Obs.unit, Obs.evicted (some 1)] ∧
    (runE (initEager 2) c3Ops).map Prod.fst =
      some [Obs.unit, Obs.unit, Obs.unit, Obs.unit, Obs.unit, Obs.unit,
        Obs.unit, Obs.unit, Obs.evicted (some 3)] ∧
    Obs.evicted (some 1) ≠ Obs.evicted (some 3) :=
  ⟨rfl, rfl, by decide⟩

/-- Claim C4 (code bug): the claim says the leftmost-one rank computation
terminates and returns 0 on an all-zero value field.  The int-index copy
does (conjuncts 2 and 4: rank 0, register unchanged by max with 0); the
size_t-index copy of src/unnamed/part_001 never leaves the loop on a zero
field because the unsigned index wraps below 0 and the next bitset access
is out of range (none).  Hash 3 * 2^62 with n_bits = 2 has an all-zero
62-bit value field; hash 2^61 has its field MSB set, giving rank 1. -/
theorem hll_leftmost_scan_code_bug :
    posLeftU 2 (3 * 2 ^ 62) = none ∧
    posLeftInt 2 (3 * 2 ^ 62) = 0 ∧
    posLeftInt 2 (2 ^ 61) = 1 ∧
    hllAdd ⟨2, [0, 0, 0, 0], 0⟩ (3 * 2 ^ 62) = ⟨2, [0, 0, 0, 0], 0⟩ :=
  ⟨by decide, by decide, by decide, by decide⟩

/-- Counterexample for C5: at hash 1 with one leading bit the low 63-bit
value field has zero trailing zeros, so the claim demands v = 0 + 1 = 1;
ExtractValue returns v = 0 (no +1 is applied). -/
theorem presto_value_counterexample :
    (extractValue 1 1).2 = 0 ∧ (extractValue 1 1).2 ≠ 0 + 1 :=
  ⟨by decide, by decide⟩

/-- Claim C5 (amended): Presto add splits the hash into the top b bits as
bucket index and computes the candidate v as the number of trailing zero
bits of the low (64 - b)-bit field, capped at 64 - b when the field is
all zero (with no +1), storing v when it exceeds the current register
value current(j). -/
theorem presto_value_amended (h b : Nat) (hh : h < 2 ^ 64) (hb : b ≤ 64) :
    (extractValue h b).1 = h / 2 ^ (64 - b) ∧
    (extractValue h b).2 ≤ 64 - b ∧
    (∀ i, i < (extractValue h b).2 → h.testBit i = false) ∧
    ((extractValue h b).2 < 64 - b → h.testBit (extractValue h b).2 = true) ∧
    (∀ s : PrestoState, s.nBits = b → prestoAdd s h =
      if prestoGetValue s (extractValue h b).1 < (extractValue h b).2 then
        prestoPutValue s (extractValue h b).1 (extractValue h b).2
      else s) := by
  obtain ⟨hge, hzero, hset⟩ := tzAux_spec h (64 - b) 0
  have hle := tzAux_le h (64 - b) 0
  refine ⟨?_, by simpa using hle, ?_, ?_, ?_⟩
  · show (if 64 - b < 64 then h >>> (64 - b) else 0) = h / 2 ^ (64 - b)
    by_cases hcap : 64 - b < 64
    · rw [if_pos hcap, Nat.shiftRight_eq_div_pow]
    · rw [if_neg hcap]
      have hb0 : b = 0 := by omega
      subst hb0
      exact (Nat.div_eq_of_lt hh).symm
  · intro i hi
    exact hzero i (Nat.zero_le i) hi
  · intro hlt
    exact hset (by simpa using hlt)
  · intro s hs
    unfold prestoAdd
    rw [Nat.mod_eq_of_lt hh, hs]

/-- Witness for the amended C5 at hash 12 and b = 2: the hypotheses hold
and the bucket and value conjuncts evaluate. -/
theorem presto_value_amended_witness :
    (12 : Nat) < 2 ^ 64 ∧ (2 : Nat) ≤ 64 ∧
    (extractValue 12 2).1 = 12 / 2 ^ 62 ∧ (extractValue 12 2).2 ≤ 62 :=
  ⟨by decide, by decide, (presto_value_amended 12 2 (by decide) (by decide)).1,
    (presto_value_amended 12 2 (by decide) (by decide)).2.1⟩

theorem hllDivider_replicate (m : Nat) :
    hllDivider (List.replicate m 0) = (m : ℚ) := by
  have haux : ∀ (mm : Nat) (acc : ℚ),
      (List.replicate mm (0 : Nat)).foldl
        (fun (acc : ℚ) (v : Nat) => acc + (2 : ℚ) ^ (-(v : ℤ))) acc = acc + mm := by
    intro mm
    induction mm with
    | zero => intro acc; simp
    | succ mm ih =>
      intro acc
      rw [List.replicate_succ, List.foldl_cons, ih]
      have h0 : (2 : ℚ) ^ (-((0 : Nat) : ℤ)) = 1 := by norm_num
      rw [h0]
      push_cast
      ring
  unfold hllDivider
  rw [haux m 0, zero_add]

/-- Counterexample for C6: a freshly constructed HyperLogLog with b = 1
(two zero registers) reports cardinality floor(0.79402 * 4 / 2) = 1, not
0, after compute_cardinality. -/
theorem hll_empty_cardinality_counterexample :
    (hllComputeCardinality (freshHLL 1)).cardinality = 1 ∧ (1 : ℤ) ≠ 0 := by
  constructor
  · show ⌊hllConstant * ((freshHLL 1).buckets.length : ℚ) ^ 2 /
        hllDivider (freshHLL 1).buckets⌋ = 1
    have hdiv : hllDivider (freshHLL 1).buckets = ((2 : Nat) : ℚ) :=
      hllDivider_replicate 2
    rw [hdiv]
    have hlen : ((freshHLL 1).buckets.length : ℚ) = 2 := by
      norm_num [freshHLL, List.length_replicate]
    rw [hlen]
    norm_num [hllConstant]
  · decide

/-- Claim C6 (amended): a freshly constructed HyperLogLog with 2^b zero
registers reports cardinality floor(0.79402 * 2^b) after
compute_cardinality (0 exactly when b = 0), and reports 0 before any
compute. -/
theorem hll_empty_cardinality_amended (b : Nat) :
    (hllComputeCardinality (freshHLL b)).cardinality = (79402 * 2 ^ b) / 100000 ∧
    (freshHLL b).cardinality = 0 := by
  refine ⟨?_, rfl⟩
  show ⌊hllConstant * ((freshHLL b).buckets.length : ℚ) ^ 2 /
      hllDivider (freshHLL b).buckets⌋ = (79402 * 2 ^ b) / 100000
  have hdiv : hllDivider (freshHLL b).buckets = ((2 ^ b : Nat) : ℚ) :=
    hllDivider_replicate (2 ^ b)
  have hlen : ((freshHLL b).buckets.length : ℚ) = ((2 ^ b : Nat) : ℚ) := by
    show (((List.replicate (2 ^ b) 0).length : Nat) : ℚ) = _
    rw [List.length_replicate]
  rw [hdiv, hlen]
  have hm : ((2 ^ b : Nat) : ℚ) ≠ 0 := by positivity
  have hexp : hllConstant * ((2 ^ b : Nat) : ℚ) ^ 2 / ((2 ^ b : Nat) : ℚ) =
      ((79402 * 2 ^ b : ℤ) : ℚ) / ((100000 : Nat) : ℚ) := by
    unfold hllConstant
    field_simp
    push_cast
    ring
  rw [hexp, Rat.floor_intCast_div_natCast]
  norm_num

/-- Counterexample for C8: at n = 65 the clamping HyperLogLog constructor
fires its assert (none) instead of clamping to 64 and succeeding, and the
Presto constructor allocates 2^65 dense registers instead of 2^64. -/
theorem estimator_ctor_counterexample :
    hllCtorClamp 65 = none ∧
    (prestoCtor 65).dense.length = 2 ^ 65 ∧
    (2 : Nat) ^ 65 ≠ 2 ^ 64 := by
  refine ⟨by decide, ?_, by decide⟩
  show (List.replicate (2 ^ (max 0 (65 : Int)).toNat) (0 : Nat)).length = 2 ^ 65
  rw [List.length_replicate]
  rfl

/-- Claim C8 (amended): the estimator constructors clamp only from
below: a negative n is treated as 0 by the clamping HyperLogLog copy and
by Presto (the non-clamping HyperLogLog copy instead ends up with zero
registers, the truncation of pow(2, n) for negative n).  An n above 64 is
not clamped: both HyperLogLog constructors fatally assert, and Presto
allocates 2^n registers.  For n up to 64 construction succeeds with
2^(max 0 n) zeroed registers. -/
theorem estimator_ctor_amended (n : Int) :
    (n ≤ 64 → ∃ s, hllCtorClamp n = some s ∧ s.nBits = (max 0 n).toNat ∧
      s.buckets.length = 2 ^ (max 0 n).toNat ∧ (∀ r ∈ s.buckets, r = 0) ∧
      s.cardinality = 0) ∧
    (64 < n → hllCtorClamp n = none) ∧
    (n ≤ 64 → ∃ p, hllCtorNoClamp n = some p ∧ p.1 = n ∧
      p.2.length = (if n < 0 then 0 else 2 ^ n.toNat) ∧ ∀ r ∈ p.2, r = 0) ∧
    (64 < n → hllCtorNoClamp n = none) ∧
    (prestoCtor n).nBits = (max 0 n).toNat ∧
    (prestoCtor n).dense.length = 2 ^ (max 0 n).toNat ∧
    (∀ r ∈ (prestoCtor n).dense, r = 0) ∧
    (prestoCtor n).overflow = [] ∧
    (prestoCtor n).cardinality = 0 := by
  refine ⟨?_, ?_, ?_, ?_, rfl, ?_, ?_, rfl, rfl⟩
  · intro hle
    unfold hllCtorClamp
    rw [if_pos (by omega)]
    refine ⟨_, rfl, rfl, List.length_replicate _ _, ?_, rfl⟩
    intro r hr
    exact List.eq_of_mem_replicate hr
  · intro hgt
    unfold hllCtorClamp
    rw [if_neg (by omega)]
  · intro hle
    unfold hllCtorNoClamp
    rw [if_pos hle]
    refine ⟨_, rfl, rfl, ?_, ?_⟩
    · by_cases hneg : n < 0
      · rw [if_pos hneg]
        exact List.length_replicate 0 0
      · rw [if_neg hneg]
        exact List.length_replicate _ 0
    · intro r hr
      by_cases hneg : n < 0
      · rw [if_pos hneg] at hr
        exact absurd hr (List.not_mem_nil r)
      · rw [if_neg hneg] at hr
        exact List.eq_of_mem_replicate hr
  · intro hgt
    unfold hllCtorNoClamp
    rw [if_neg (by omega)]
  · exact List.length_replicate _ _
  · intro r hr
    exact List.eq_of_mem_replicate hr

/-- Witness for the amended C8 at n = 3. -/
theorem estimator_ctor_amended_witness :
    (3 : Int) ≤ 64 ∧
    (∃ s, hllCtorClamp 3 = some s ∧ s.nBits = (max 0 (3 : Int)).toNat ∧
      s.buckets.length = 2 ^ (max 0 (3 : Int)).toNat ∧ (∀ r ∈ s.buckets, r = 0) ∧
      s.cardinality = 0) :=
  ⟨by decide, (estimator_ctor_amended 3).1 (by decide)⟩

theorem prestoGetValue_putValue_frame {s : PrestoState} {j v : Nat} (i : Nat)
    (hij : i ≠ j) :
    (prestoPutValue s j v).dense.getD i 0 = s.dense.getD i 0 ∧
    lookupOvf (prestoPutValue s j v).overflow i = lookupOvf s.overflow i ∧
    prestoGetValue (prestoPutValue s j v) i = prestoGetValue s i := by
  unfold prestoPutValue
  by_cases hovf : v >>> DENSE_BUCKET_SIZE ≠ 0
  · rw [if_pos hovf]
    dsimp only
    refine ⟨getD_set_ne (fun he => hij he.symm),
      lookupOvf_setOvf_ne _ _ _ _ hij, ?_⟩
    unfold prestoGetValue
    dsimp only
    rw [getD_set_ne (fun he => hij he.symm), lookupOvf_setOvf_ne _ _ _ _ hij]
  · rw [if_neg hovf]
    dsimp only
    refine ⟨getD_set_ne (fun he => hij he.symm), rfl, ?_⟩
    unfold prestoGetValue
    dsimp only
    rw [getD_set_ne (fun he => hij he.symm)]

theorem prestoGetValue_putValue_ge {s : PrestoState} {j v : Nat} (hv : v ≤ 64)
    (hguard : prestoGetValue s j < v) :
    prestoGetValue s j ≤ prestoGetValue (prestoPutValue s j v) j := by
  have e1 : (2 : Nat) ^ DENSE_BUCKET_SIZE = 16 := rfl
  have e2 : (2 : Nat) ^ OVERFLOW_BUCKET_SIZE = 8 := rfl
  have e3 : ∀ x : Nat, x <<< DENSE_BUCKET_SIZE = 16 * x := fun x => by
    rw [show DENSE_BUCKET_SIZE = 4 from rfl, Nat.shiftLeft_eq]
    ring
  have e4 : v >>> DENSE_BUCKET_SIZE = v / 16 := by
    rw [show DENSE_BUCKET_SIZE = 4 from rfl, Nat.shiftRight_eq_div_pow]
  unfold prestoGetValue at hguard ⊢
  unfold prestoPutValue
  by_cases hovf : v >>> DENSE_BUCKET_SIZE ≠ 0
  · rw [if_pos hovf]
    dsimp only
    rw [lookupOvf_setOvf_self]
    simp only [Option.getD_some]
    rw [e4] at hovf
    by_cases hlen : j < s.dense.length
    · rw [getD_set_self hlen]
      simp only [e1, e2, e3, e4] at hguard ⊢
      omega
    · rw [List.set_eq_of_length_le (by omega)]
      simp only [e1, e2, e3, e4] at hguard ⊢
      omega
  · rw [if_neg hovf]
    dsimp only
    have hv0 : v / 16 = 0 := by
      rw [← e4]
      exact of_not_not (fun hc => hovf hc)
    by_cases hlen : j < s.dense.length
    · rw [getD_set_self hlen]
      simp only [e1, e2, e3] at hguard ⊢
      omega
    · rw [List.set_eq_of_length_le (by omega)]

/-- Claim C9: neither estimator ever decreases a register on add.  For
HyperLogLog the register is buckets_[i]; for Presto the logical register
is current(i) = dense(i) | (overflow(i) << DENSE_BUCKET_SIZE), read by
GetValue. -/
theorem estimator_add_monotonic :
    (∀ (s : HLLState) (h i : Nat),
      s.buckets.getD i 0 ≤ (hllAdd s h).buckets.getD i 0) ∧
    (∀ (s : PrestoState) (h i : Nat),
      prestoGetValue s i ≤ prestoGetValue (prestoAdd s h) i) := by
  constructor
  · intro s h i
    unfold hllAdd
    dsimp only
    by_cases hij : i = hllBucket s.nBits (h % 2 ^ 64)
    · by_cases hlen : hllBucket s.nBits (h % 2 ^ 64) < s.buckets.length
      · rw [hij, getD_set_self hlen]
        exact le_max_left _ _
      · rw [List.set_eq_of_length_le (by omega)]
    · rw [getD_set_ne (fun he => hij he.symm)]
  · intro s h i
    unfold prestoAdd
    dsimp only
    by_cases hguard : prestoGetValue s (extractValue (h % 2 ^ 64) s.nBits).1 <
        (extractValue (h % 2 ^ 64) s.nBits).2
    · rw [if_pos hguard]
      have hv : (extractValue (h % 2 ^ 64) s.nBits).2 ≤ 64 := by
        show tzAux (h % 2 ^ 64) 0 (64 - s.nBits) ≤ 64
        have := tzAux_le (h % 2 ^ 64) (64 - s.nBits) 0
        omega
      by_cases hij : i = (extractValue (h % 2 ^ 64) s.nBits).1
      · rw [hij]
        exact prestoGetValue_putValue_ge hv hguard
      · exact le_of_eq ((prestoGetValue_putValue_frame i hij).2.2).symm
    · rw [if_neg hguard]

/-- Claim C10: add modifies at most the register selected by the top b
bits of the hash (for Presto: that dense slot and its overflow entry) and
leaves every other register and the stored cardinality unchanged;
compute_cardinality modifies only the stored cardinality and leaves every
register unchanged. -/
theorem estimator_add_frame_effect :
    (∀ (s : HLLState) (h i : Nat), i ≠ hllBucket s.nBits (h % 2 ^ 64) →
      (hllAdd s h).buckets.getD i 0 = s.buckets.getD i 0) ∧
    (∀ (s : HLLState) (h : Nat),
      (hllAdd s h).cardinality = s.cardinality ∧ (hllAdd s h).nBits = s.nBits) ∧
    (∀ s : HLLState, (hllComputeCardinality s).buckets = s.buckets ∧
      (hllComputeCardinality s).nBits = s.nBits) ∧
    (∀ (s : PrestoState) (h i : Nat), i ≠ (extractValue (h % 2 ^ 64) s.nBits).1 →
      (prestoAdd s h).dense.getD i 0 = s.dense.getD i 0 ∧
      lookupOvf (prestoAdd s h).overflow i = lookupOvf s.overflow i ∧
      prestoGetValue (prestoAdd s h) i = prestoGetValue s i) ∧
    (∀ (s : PrestoState) (h : Nat),
      (prestoAdd s h).cardinality = s.cardinality ∧ (prestoAdd s h).nBits = s.nBits) ∧
    (∀ s : PrestoState, (prestoComputeCardinality s).dense = s.dense ∧
      (prestoComputeCardinality s).overflow = s.overflow ∧
      (prestoComputeCardinality s).nBits = s.nBits) := by
  refine ⟨?_, fun s h => ⟨rfl, rfl⟩, fun s => ⟨rfl, rfl⟩, ?_, ?_,
    fun s => ⟨rfl, rfl, rfl⟩⟩
  · intro s h i hij
    unfold hllAdd
    dsimp only
    exact getD_set_ne (fun he => hij he.symm)
  · intro s h i hij
    unfold prestoAdd
    dsimp only
    by_cases hguard : prestoGetValue s (extractValue (h % 2 ^ 64) s.nBits).1 <
        (extractValue (h % 2 ^ 64) s.nBits).2
    · rw [if_pos hguard]
      exact prestoGetValue_putValue_frame i hij
    · rw [if_neg hguard]
      exact ⟨rfl, rfl, rfl⟩
  · intro s h
    unfold prestoAdd
    dsimp only
    by_cases hguard : prestoGetValue s (extractValue (h % 2 ^ 64) s.nBits).1 <
        (extractValue (h % 2 ^ 64) s.nBits).2
    · rw [if_pos hguard]
      unfold prestoPutValue
      by_cases hovf : (extractValue (h % 2 ^ 64) s.nBits).2 >>> DENSE_BUCKET_SIZE ≠ 0
      · rw [if_pos hovf]
        exact ⟨rfl, rfl⟩
      · rw [if_neg hovf]
        exact ⟨rfl, rfl⟩
    · rw [if_neg hguard]
      exact ⟨rfl, rfl⟩

/-- Witness for C10: adding hash 2^63 to a two-register HyperLogLog
(b = 1) selects bucket 1 and leaves register 0 unchanged; the Presto add
of hash 1 with b = 1 selects bucket 0 and leaves register 1 unchanged. -/
theorem estimator_add_frame_effect_witness :
    (0 : Nat) ≠ hllBucket (⟨1, [0, 0], 0⟩ : HLLState).nBits (2 ^ 63 % 2 ^ 64) ∧
    (hllAdd ⟨1, [0, 0], 0⟩ (2 ^ 63)).buckets.getD 0 0 =
      (⟨1, [0, 0], 0⟩ : HLLState).buckets.getD 0 0 ∧
    (1 : Nat) ≠ (extractValue (1 % 2 ^ 64) (⟨1, [0, 0], [], 0⟩ : PrestoState).nBits).1 ∧
    prestoGetValue (prestoAdd ⟨1, [0, 0], [], 0⟩ 1) 1 =
      prestoGetValue (⟨1, [0, 0], [], 0⟩ : PrestoState) 1 :=
  ⟨by decide, estimator_add_frame_effect.1 ⟨1, [0, 0], 0⟩ (2 ^ 63) 0 (by decide),
    by decide,
    (estimator_add_frame_effect.2.2.2.1 ⟨1, [0, 0], [], 0⟩ 1 1 (by decide)).2.2⟩
